import Mathlib

/-!
Verification of the donuts pairing engine.

The definitions below are a shallow embedding of the repository's Python
sources.  CSV files are modelled as lists of rows (each row a list of
strings); Python dicts keyed by sequentially assigned integer ids are
modelled as lists indexed by position; exceptions are modelled with
`Except String`.  Each definition's doc comment names the Python function
it embeds.
-/

namespace Donuts

/-- Embeds `Person` from `src/history.py`: a dataclass with `name` and
`email` fields. -/
structure Person where
  name : String
  email : String
deriving DecidableEq

/-- Embeds `_parse_csv_row` from `src/history.py`: a row with fewer than
`MIN_CSV_COLUMNS = 2` or more than `MAX_CSV_COLUMNS = 3` fields is rejected
(`None`); otherwise the first two fields are returned together with the
third field when present. -/
def parse_csv_row (row : List String) : Option (String × String × Option String) :=
  if row.length < 2 ∨ 3 < row.length then none
  else some (row.getD 0 "", row.getD 1 "",
    if row.length = 3 then some (row.getD 2 "") else none)

/-- Embeds the warning emitted by `_parse_csv_row` in `src/history.py`:
the `INVALID_CSV_LINE_WARNING` is printed exactly for non-empty rows of
invalid shape (empty rows are skipped silently, because of the
`if row:` guard). -/
def parse_csv_row_warns (row : List String) : Bool :=
  (row.length < 2 ∨ 3 < row.length) ∧ row ≠ []

/-- Embeds `parse_registry` from `src/history.py` (with the file contents
given as a list of rows): each row accepted by `_parse_csv_row` becomes a
`Person` keyed by `len(registry)`, i.e. ids are sequential positions, so
the registry dict is modelled as a list of persons indexed by id. -/
def parse_registry (rows : List (List String)) : List Person :=
  rows.foldl (fun reg row =>
    match parse_csv_row row with
    | none => reg
    | some (name, email, _) => reg ++ [⟨name, email⟩]) []

/-- Embeds the list of rows for which `parse_registry` prints the
`INVALID_CSV_LINE_WARNING` while loading a roster. -/
def parse_registry_warnings (rows : List (List String)) : List (List String) :=
  rows.filter (fun row => parse_csv_row_warns row)

/-- Embeds one `identifier_to_id[identifier] = person_id` step of
`_build_identifier_mapping` from `src/history.py`, including the
`KeyError` raised when the identifier string is already a key. -/
def insertIdent (mapping : List (String × Nat)) (ident : String) (pid : Nat) :
    Except String (List (String × Nat)) :=
  if mapping.any (fun kv => kv.1 == ident) then
    .error ("duplicate key " ++ ident ++ " in registry")
  else
    .ok (mapping ++ [(ident, pid)])

/-- Embeds the loop of `_build_identifier_mapping` from `src/history.py`:
for each person (in id order) insert its name and then its email into the
mapping, raising on a duplicate key. -/
def buildMapping (pid : Nat) (ps : List Person) (acc : List (String × Nat)) :
    Except String (List (String × Nat)) :=
  match ps with
  | [] => .ok acc
  | p :: rest =>
    match insertIdent acc p.name pid with
    | .error e => .error e
    | .ok acc1 =>
      match insertIdent acc1 p.email pid with
      | .error e => .error e
      | .ok acc2 => buildMapping (pid + 1) rest acc2

/-- Embeds `_build_identifier_mapping` from `src/history.py`: build a
mapping from identifier strings (name or email) to person ids, raising
`KeyError("duplicate key ... in registry")` if any identifier repeats. -/
def build_identifier_mapping (registry : List Person) :
    Except String (List (String × Nat)) :=
  buildMapping 0 registry []

/-- The sequence of identifier strings inserted by
`_build_identifier_mapping`, in insertion order: for each person its name,
then its email. -/
def identStream (registry : List Person) : List String :=
  registry.flatMap (fun p => [p.name, p.email])

/-- Embeds a Python dict lookup `identifier_to_id[s]` /
`s in identifier_to_id` over the mapping built by
`_build_identifier_mapping` (whose keys are unique). -/
def lookupId (mapping : List (String × Nat)) (s : String) : Option Nat :=
  (mapping.find? (fun kv => kv.1 == s)).map (fun kv => kv.2)

/-- Embeds the row loop of `parse_history` from `src/history.py`: rows of
invalid shape are skipped, rows naming an identifier absent from the
mapping are skipped with a warning, every other row contributes the pair
of resolved ids. -/
def historyRows (mapping : List (String × Nat)) :
    List (List String) → List (Nat × Nat)
  | [] => []
  | row :: rest =>
    match parse_csv_row row with
    | none => historyRows mapping rest
    | some (p1, p2, _) =>
      match lookupId mapping p1 with
      | none => historyRows mapping rest
      | some id1 =>
        match lookupId mapping p2 with
        | none => historyRows mapping rest
        | some id2 => (id1, id2) :: historyRows mapping rest

/-- Embeds `parse_history` from `src/history.py` (file contents given as
rows): first build the identifier mapping (which may raise `KeyError` on a
duplicate identifier), then resolve each row. -/
def parse_history (registry : List Person) (rows : List (List String)) :
    Except String (List (Nat × Nat)) :=
  match build_identifier_mapping registry with
  | .error e => .error e
  | .ok mapping => .ok (historyRows mapping rows)

/-- Embeds `history_contains_ts` from `slackbot/tracking.py`: true iff
some row has at least 3 fields and its third field equals `ts`. -/
def history_contains_ts (rows : List (List String)) (ts : String) : Bool :=
  rows.any (fun row => decide (3 ≤ row.length) && (row.getD 2 "" == ts))

/-- Embeds `append_to_history` from `slackbot/tracking.py` (the history
file contents given and returned as rows): read all rows, append the new
row `[person1, person2]` plus the timestamp when `slack_ts` is truthy
(Python truthiness: `None` and the empty string are falsy), and write
everything back.  No deduplication check is performed. -/
def append_to_history (person1 person2 : String) (rows : List (List String))
    (slack_ts : Option String) : List (List String) :=
  rows ++ [[person1, person2] ++
    (match slack_ts with
     | some ts => if ts = "" then [] else [ts]
     | none => [])]

/-- Embeds `get_history_size` from `slackbot/tracking.py`: the number of
rows in the history file. -/
def get_history_size (rows : List (List String)) : Nat :=
  rows.length

/-- Embeds pair normalization `tuple(sorted(pair))` used throughout
`src/solver.py`: the two ids in ascending order. -/
def normalize (p : Nat × Nat) : Nat × Nat :=
  if p.1 ≤ p.2 then p else (p.2, p.1)

/-- Unique keys of a list in first-occurrence order: the key order of a
Python `Counter` built from the list. -/
def firstKeys {α : Type} [DecidableEq α] : List α → List α
  | [] => []
  | x :: xs => x :: (firstKeys xs).filter (fun y => y ≠ x)

/-- Embeds `get_past_meeting_counts` from `src/solver.py`:
`Counter(normalized).items()` where `normalized` sorts each history pair;
keys in first-occurrence order, each with its number of occurrences. -/
def get_past_meeting_counts (history : List (Nat × Nat)) :
    List ((Nat × Nat) × Nat) :=
  (firstKeys (history.map normalize)).map
    (fun k => (k, (history.map normalize).count k))

/-- Embeds `meeting_counts.get(normalized, 0)`, i.e. a dict lookup with
default 0 over the counter items (whose keys are unique). -/
def countLookup (counts : List ((Nat × Nat) × Nat)) (k : Nat × Nat) : Nat :=
  match counts.find? (fun kc => kc.1 == k) with
  | some kc => kc.2
  | none => 0

/-- Embeds `_get_past_meetings_count` from `src/solver.py`: normalize the
pair, then look it up in the meeting counts with default 0. -/
def get_past_meetings_count (pair : Nat × Nat)
    (meeting_counts : List ((Nat × Nat) × Nat)) : Nat :=
  countLookup meeting_counts (normalize pair)

/-- Left fold keeping the current element when the new one is strictly
better: the selection loop shared by Python's `min(..., key=...)` (with
`btr` = strictly smaller key, first minimum kept) and the modelled
matching optimizer. -/
def selectBest {α : Type} (btr : α → α → Bool) (init : α) (l : List α) : α :=
  l.foldl (fun best m => if btr m best then m else best) init

/-- Embeds Python `min(xs, key=key)`: raises
`ValueError("min() arg is an empty sequence")` on an empty sequence,
otherwise returns the first element with minimal key. -/
def pymin {α : Type} (key : α → Nat) : List α → Except String α
  | [] => .error "min() arg is an empty sequence"
  | x :: xs => .ok (selectBest (fun m b => decide (key m < key b)) x xs)

/-- Embeds the `key=lambda pair: ...` of `_form_triplet_groups` in
`src/solver.py`: past meetings of the pair itself plus past meetings of
the unmatched person with each pair member. -/
def tripletKey (meeting_counts : List ((Nat × Nat) × Nat))
    (unmatched_id : Nat) (pair : Nat × Nat) : Nat :=
  get_past_meetings_count pair meeting_counts +
    get_past_meetings_count (unmatched_id, pair.1) meeting_counts +
    get_past_meetings_count (unmatched_id, pair.2) meeting_counts

/-- Embeds `_form_triplet_groups` from `src/solver.py` at the level of
ids (the source finally replaces each id by `registry[id]`, a plain
lookup): pick the matched pair with minimal `tripletKey` via `min` (which
raises on an empty matching), and emit every matched pair as a group,
the chosen one extended with the unmatched id. -/
def form_triplet_groups (matching : List (Nat × Nat)) (unmatched_id : Nat)
    (meeting_counts : List ((Nat × Nat) × Nat)) :
    Except String (List (List Nat)) :=
  match pymin (tripletKey meeting_counts unmatched_id) matching with
  | .error e => .error e
  | .ok min_pair => .ok (matching.map (fun pair =>
      if pair = min_pair then [pair.1, pair.2, unmatched_id]
      else [pair.1, pair.2]))

/-- All matchings over the given vertex list, fuelled so the recursion is
structural: either the first vertex is unmatched, or it is paired with
some later vertex and the rest is a matching of the remaining vertices. -/
def matchingsFuel : Nat → List Nat → List (List (Nat × Nat))
  | _, [] => [[]]
  | 0, _ :: _ => []
  | f + 1, x :: xs =>
      matchingsFuel f xs ++ xs.flatMap (fun y =>
        (matchingsFuel f (xs.erase y)).map (fun m => (x, y) :: m))

/-- All matchings over the given vertex list. -/
def matchings (l : List Nat) : List (List (Nat × Nat)) :=
  matchingsFuel l.length l

/-- The vertices covered by a list of matched pairs, in order: embeds the
`matched_ids` set comprehension of `make_assignment` in `src/solver.py`. -/
def verts (m : List (Nat × Nat)) : List Nat :=
  (m.map (fun p => [p.1, p.2])).flatten

/-- Total edge weight of a matching in the graph built by
`make_assignment` in `src/solver.py`: every edge defaults to weight 0 and
every counted pair is re-added with weight `-count`, so the weight of a
matched pair is the negated past-meeting count. -/
def totalWeight (meeting_counts : List ((Nat × Nat) × Nat))
    (m : List (Nat × Nat)) : Int :=
  (m.map (fun p => -(get_past_meetings_count p meeting_counts : Int))).sum

/-- Strict comparison of two matchings: more matched pairs, or the same
number of pairs and strictly larger total weight.  This is the objective
of `networkx.max_weight_matching(graph, maxcardinality=True)`. -/
def betterMatching (meeting_counts : List ((Nat × Nat) × Nat))
    (m best : List (Nat × Nat)) : Bool :=
  decide (best.length < m.length) ||
    (decide (m.length = best.length) &&
      decide (totalWeight meeting_counts best < totalWeight meeting_counts m))

/-- Embeds `graph.add_node`-on-demand behaviour of
`networkx.Graph.add_edge`: an endpoint not yet in the node list is
appended. -/
def add_node (nodes : List Nat) (v : Nat) : List Nat :=
  if v ∈ nodes then nodes else nodes ++ [v]

/-- The node set of the graph built by `make_assignment` in
`src/solver.py`: the registry ids (from `add_nodes_from`), plus — in
iteration order — every endpoint of a counted history pair that is not
already a node, because `graph.add_edge(pair[0], pair[1], ...)` adds
missing nodes. -/
def graph_nodes (ids : List Nat)
    (meeting_counts : List ((Nat × Nat) × Nat)) : List Nat :=
  meeting_counts.foldl (fun ns pc => add_node (add_node ns pc.1.1) pc.1.2) ids

/-- Whether the built graph has an edge between the two (distinct) nodes
of `p`: every pair of distinct registry ids is an edge (the complete
graph laid down first), and every counted pair is an edge (its
`add_edge` call).  Self-loop edges from self-pairs are irrelevant here
because networkx's matching scan ignores self-loops. -/
def isEdge (ids : List Nat) (meeting_counts : List ((Nat × Nat) × Nat))
    (p : Nat × Nat) : Bool :=
  (decide (p.1 ∈ ids) && decide (p.2 ∈ ids)) ||
    meeting_counts.any (fun kc => kc.1 == normalize p)

/-- All matchings of the graph built by `make_assignment`: vertex-disjoint
lists of pairs of distinct graph nodes, every pair being a graph edge. -/
def graph_matchings (ids : List Nat)
    (meeting_counts : List ((Nat × Nat) × Nat)) : List (List (Nat × Nat)) :=
  (matchings (graph_nodes ids meeting_counts)).filter
    (fun m => m.all (fun p => isEdge ids meeting_counts p))

/-- Models `networkx.max_weight_matching(graph, maxcardinality=True)` as
called by `make_assignment` in `src/solver.py`, by the library's
documented contract: among all matchings of the graph — whose nodes are
the registry ids plus any endpoints of counted history pairs, and whose
edges are the complete graph over the registry ids plus the counted
pairs — return one of maximum cardinality with maximum total weight,
here by exhaustive search.  Edge weight is `-count` on counted pairs and
0 elsewhere (see `totalWeight`). -/
def max_weight_matching (ids : List Nat)
    (meeting_counts : List ((Nat × Nat) × Nat)) : List (Nat × Nat) :=
  selectBest (betterMatching meeting_counts) []
    (graph_matchings ids meeting_counts)

/-- Undirected-edge equality of a `networkx.Graph`: `(a, b)` and
`(b, a)` denote the same edge. -/
def sameEdge (p q : Nat × Nat) : Bool :=
  (p.1 == q.1 && p.2 == q.2) || (p.1 == q.2 && p.2 == q.1)

/-- Embeds `graph.add_edge(u, v, weight=w)`: update the weight when the
undirected edge already exists, otherwise append it. -/
def add_edge (g : List ((Nat × Nat) × Int)) (p : Nat × Nat) (w : Int) :
    List ((Nat × Nat) × Int) :=
  if g.any (fun e => sameEdge e.1 p) then
    g.map (fun e => if sameEdge e.1 p then (e.1, w) else e)
  else g ++ [(p, w)]

/-- Embeds `itertools.combinations(nodes, 2)`: all pairs of distinct
elements, each with the earlier element first. -/
def combinations2 : List Nat → List (Nat × Nat)
  | [] => []
  | x :: xs => xs.map (fun y => (x, y)) ++ combinations2 xs

/-- Embeds the graph construction of `make_assignment` in
`src/solver.py`: add every pair of distinct registry ids with weight 0,
then re-add each counted pair with weight `-count`. -/
def build_graph_edges (ids : List Nat)
    (meeting_counts : List ((Nat × Nat) × Nat)) : List ((Nat × Nat) × Int) :=
  meeting_counts.foldl (fun g pc => add_edge g pc.1 (-(pc.2 : Int)))
    ((combinations2 ids).map (fun p => (p, (0 : Int))))

/-- Whether the built graph contains the given undirected edge. -/
def graph_has_edge (g : List ((Nat × Nat) × Int)) (p : Nat × Nat) : Bool :=
  g.any (fun e => sameEdge e.1 p)

/-- Embeds the `registry[id]` dict lookup of `src/solver.py` at the id
level: the id itself when it is a registry key, otherwise the
`KeyError` Python raises. -/
def registry_lookup (ids : List Nat) (i : Nat) : Except String Nat :=
  if i ∈ ids then .ok i else .error ("KeyError: " ++ toString i)

/-- Looks up every id of one group in order, as the source's tuple
construction `(registry[pair[0]], registry[pair[1]], ...)` does: the
first missing id raises `KeyError`. -/
def group_lookup (ids : List Nat) : List Nat → Except String (List Nat)
  | [] => .ok []
  | i :: rest =>
    match registry_lookup ids i with
    | .error e => .error e
    | .ok j =>
      match group_lookup ids rest with
      | .error e => .error e
      | .ok js => .ok (j :: js)

/-- Looks up every group's ids in order; models the source performing the
`registry[...]` lookups group by group (loop in `_form_triplet_groups`,
list comprehension in `make_assignment`), preserving which lookup raises
`KeyError` first. -/
def groups_lookup (ids : List Nat) :
    List (List Nat) → Except String (List (List Nat))
  | [] => .ok []
  | g :: rest =>
    match group_lookup ids g with
    | .error e => .error e
    | .ok g' =>
      match groups_lookup ids rest with
      | .error e => .error e
      | .ok gs => .ok (g' :: gs)

/-- Embeds `make_assignment` from `src/solver.py` at the level of ids:
build the meeting counts, compute the maximum-cardinality maximum-weight
matching of the built graph (which may contain non-registry nodes from
counted history pairs), and on an odd registry size resolve one
unmatched registry id into a triplet — `set.pop()` on the unmatched-id
set is modelled by taking the first leftover id, and raises when every
registry id is matched.  The source's `registry[id]` conversions, done
while building each group, are modelled by `groups_lookup` scanning the
id groups in the same order, so the same lookup raises `KeyError`
first. -/
def make_assignment (ids : List Nat) (history : List (Nat × Nat)) :
    Except String (List (List Nat)) :=
  let meeting_counts := get_past_meeting_counts history
  let matching := max_weight_matching ids meeting_counts
  if ids.length % 2 = 1 then
    match ids.filter (fun i => decide (i ∉ verts matching)) with
    | [] => .error "pop from an empty set"
    | unmatched_id :: _ =>
      match form_triplet_groups matching unmatched_id meeting_counts with
      | .error e => .error e
      | .ok groups => groups_lookup ids groups
  else
    groups_lookup ids (matching.map (fun p => [p.1, p.2]))

/-- A matching over a vertex list, abstractly: the covered vertices are
pairwise distinct (so the pairs are vertex-disjoint and no pair repeats a
vertex) and all lie in the vertex list. -/
def IsMatching (ids : List Nat) (m : List (Nat × Nat)) : Prop :=
  (verts m).Nodup ∧ verts m ⊆ ids

/-- Total historical-meeting count of a matching: the sum over its pairs
of the past-meeting count. -/
def totalCost (meeting_counts : List ((Nat × Nat) × Nat))
    (m : List (Nat × Nat)) : Nat :=
  (m.map (fun p => get_past_meetings_count p meeting_counts)).sum

/-- Pair up consecutive vertices: a witness that a near-perfect matching
always exists on the complete graph. -/
def pairUp : List Nat → List (Nat × Nat)
  | a :: b :: l => (a, b) :: pairUp l
  | _ => []

/-! ### Lemmas about registry parsing -/

theorem parse_registry_foldl (acc : List Person) (rows : List (List String)) :
    rows.foldl (fun reg row =>
      match parse_csv_row row with
      | none => reg
      | some (name, email, _) => reg ++ [⟨name, email⟩]) acc =
    acc ++ (rows.filter (fun r => decide (2 ≤ r.length) && decide (r.length ≤ 3))).map
      (fun r => Person.mk (r.getD 0 "") (r.getD 1 "")) := by
  induction rows generalizing acc with
  | nil => simp
  | cons r rest ih =>
    simp only [List.foldl_cons, List.filter_cons]
    by_cases h : 2 ≤ r.length ∧ r.length ≤ 3
    · have hrow : parse_csv_row r = some (r.getD 0 "", r.getD 1 "",
        if r.length = 3 then some (r.getD 2 "") else none) := by
        unfold parse_csv_row
        rw [if_neg]; omega
      rw [hrow, ih]
      have : (decide (2 ≤ r.length) && decide (r.length ≤ 3)) = true := by
        simp [h.1, h.2]
      rw [this]
      simp
    · have hrow : parse_csv_row r = none := by
        unfold parse_csv_row
        rw [if_pos]; omega
      rw [hrow, ih]
      have : (decide (2 ≤ r.length) && decide (r.length ≤ 3)) = false := by
        rcases Decidable.not_and_iff_or_not.mp h with h' | h' <;> simp [h']
      rw [this]
      simp

theorem parse_registry_eq (rows : List (List String)) :
    parse_registry rows =
      (rows.filter (fun r => decide (2 ≤ r.length) && decide (r.length ≤ 3))).map
        (fun r => Person.mk (r.getD 0 "") (r.getD 1 "")) := by
  unfold parse_registry
  simpa using parse_registry_foldl [] rows

/-! ### Lemmas about the identifier mapping -/

theorem insertIdent_ok {acc : List (String × Nat)} {ident : String} {pid : Nat}
    {acc' : List (String × Nat)} (h : insertIdent acc ident pid = .ok acc') :
    ident ∉ acc.map Prod.fst ∧ acc' = acc ++ [(ident, pid)] := by
  unfold insertIdent at h
  by_cases c : acc.any (fun kv => kv.1 == ident)
  · rw [if_pos c] at h; cases h
  · rw [if_neg c] at h
    cases h
    refine ⟨?_, rfl⟩
    intro hmem
    apply c
    rcases List.mem_map.mp hmem with ⟨kv, hkv, hfst⟩
    exact List.any_eq_true.mpr ⟨kv, hkv, by simp [hfst]⟩

theorem buildMapping_ok_nodup (ps : List Person) :
    ∀ (pid : Nat) (acc m : List (String × Nat)),
      (acc.map Prod.fst).Nodup →
      buildMapping pid ps acc = .ok m →
      ((acc.map Prod.fst) ++ identStream ps).Nodup := by
  induction ps with
  | nil =>
    intro pid acc m hacc _
    simpa [identStream] using hacc
  | cons p rest ih =>
    intro pid acc m hacc h
    unfold buildMapping at h
    cases h1 : insertIdent acc p.name pid with
    | error e => rw [h1] at h; cases h
    | ok acc1 =>
      rw [h1] at h
      dsimp only at h
      cases h2 : insertIdent acc1 p.email pid with
      | error e => rw [h2] at h; cases h
      | ok acc2 =>
        rw [h2] at h
        dsimp only at h
        obtain ⟨hn, hacc1⟩ := insertIdent_ok h1
        obtain ⟨he, hacc2⟩ := insertIdent_ok h2
        subst hacc1 hacc2
        have hkeys : ((acc ++ [(p.name, pid)]) ++ [(p.email, pid)]).map Prod.fst =
            acc.map Prod.fst ++ [p.name, p.email] := by
          simp
        have hkeysnd : (((acc ++ [(p.name, pid)]) ++ [(p.email, pid)]).map Prod.fst).Nodup := by
          rw [hkeys]
          have hne : p.email ∉ acc.map Prod.fst ∧ p.email ≠ p.name := by
            constructor
            · intro hc; exact he (by simp [hc])
            · intro hc; exact he (by simp [hc])
          simp only [List.nodup_append, List.nodup_cons, List.nodup_nil]
          refine ⟨hacc, ⟨by simp [Ne.symm hne.2], by simp, trivial⟩, ?_⟩
          intro a ha
          simp only [List.mem_cons, List.mem_singleton, List.not_mem_nil]
          rintro (rfl | rfl | hc)
          · exact hn ha
          · exact hne.1 ha
          · exact hc
        have := ih (pid + 1) _ m hkeysnd h
        rw [hkeys] at this
        simpa [identStream, List.append_assoc] using this

theorem build_identifier_mapping_ok_nodup {registry : List Person}
    {m : List (String × Nat)} (h : build_identifier_mapping registry = .ok m) :
    (identStream registry).Nodup := by
  have := buildMapping_ok_nodup registry 0 [] m (by simp) h
  simpa using this

/-! ### Claim C6: roster row validation -/

/-- C6, counterexample: a roster row with three fields — hence not
consisting of exactly two non-empty fields — is not skipped: it becomes a
registry entry built from its first two fields. -/
theorem C6_counterexample :
    parse_registry [["a", "b", "c"]] = [⟨"a", "b"⟩] := by rfl

/-- C6, amended: a roster row is skipped exactly when it has fewer than 2
or more than 3 fields (warned iff additionally non-empty); every row with
exactly 2 or 3 fields — empty fields included, the third field ignored —
becomes a registry entry from its first two fields, and skipping is never
fatal: the remaining rows still load, in order. -/
theorem C6_row_handling (rows : List (List String)) :
    parse_registry rows =
      (rows.filter (fun r =>
        decide (2 ≤ r.length) && decide (r.length ≤ 3))).map
        (fun r => Person.mk (r.getD 0 "") (r.getD 1 "")) ∧
    ∀ r, r ∈ parse_registry_warnings rows ↔
      r ∈ rows ∧ (r.length < 2 ∨ 3 < r.length) ∧ r ≠ [] := by
  refine ⟨parse_registry_eq rows, ?_⟩
  intro r
  simp [parse_registry_warnings, List.mem_filter, parse_csv_row_warns,
    and_assoc]

/-! ### Claim C4: duplicate identifier handling -/

/-- C4, counterexample: constructing a registry from a roster whose two
rows share an email does not fail: `parse_registry` returns the full
two-person registry, so a registry is produced. -/
theorem C4_counterexample :
    parse_registry [["A", "dup@x.com"], ["B", "dup@x.com"]] =
      [⟨"A", "dup@x.com"⟩, ⟨"B", "dup@x.com"⟩] := by rfl

/-- C4, amended: `parse_registry` never rejects duplicate identifiers;
the duplicate is detected only when the identifier mapping is built,
which happens inside `parse_history`: whenever the registry's identifier
stream (each person's name then email, in id order) repeats a string,
`_build_identifier_mapping` fails with the `KeyError`-modelled
"duplicate key" error, and so does `parse_history` on any history
rows. -/
theorem C4_duplicate_detection (registry : List Person)
    (hdup : ¬ (identStream registry).Nodup) :
    (∀ m, build_identifier_mapping registry ≠ .ok m) ∧
    (∀ rows, ∃ e, parse_history registry rows = .error e) := by
  have h1 : ∀ m, build_identifier_mapping registry ≠ .ok m := by
    intro m hok
    exact hdup (build_identifier_mapping_ok_nodup hok)
  refine ⟨h1, ?_⟩
  intro rows
  unfold parse_history
  cases h : build_identifier_mapping registry with
  | error e => exact ⟨e, rfl⟩
  | ok m => exact absurd h (h1 m)

/-- C4, witness: the amended theorem applied to a concrete roster with a
shared email. -/
theorem C4_witness :
    (∀ m, build_identifier_mapping
      [⟨"A", "dup@x.com"⟩, ⟨"B", "dup@x.com"⟩] ≠ .ok m) ∧
    (∃ e, parse_history [⟨"A", "dup@x.com"⟩, ⟨"B", "dup@x.com"⟩]
      [["A", "B"]] = .error e) :=
  ⟨(C4_duplicate_detection
      [⟨"A", "dup@x.com"⟩, ⟨"B", "dup@x.com"⟩] (by decide)).1,
   (C4_duplicate_detection
      [⟨"A", "dup@x.com"⟩, ⟨"B", "dup@x.com"⟩] (by decide)).2 [["A", "B"]]⟩

/-! ### Claim C3: append is not idempotent in the correlation token -/

/-- C3, failing input evaluated: the store already contains an entry with
correlation token "t1", yet a second append with token "t1" adds a second
identical row — `append_to_history` never consults
`history_contains_ts`, so the call is not a no-op and the store size
grows from 1 to 2. -/
theorem C3_append_appends_despite_token :
    history_contains_ts [["Alice", "Bob", "t1"]] "t1" = true ∧
    append_to_history "Alice" "Bob" [["Alice", "Bob", "t1"]] (some "t1") =
      [["Alice", "Bob", "t1"], ["Alice", "Bob", "t1"]] ∧
    get_history_size (append_to_history "Alice" "Bob"
      [["Alice", "Bob", "t1"]] (some "t1")) = 2 :=
  ⟨by rfl, by rfl, by rfl⟩

/-! ### Claim C9: a non-deduplicated append is a pure tail append -/

/-- C9: an append on a store not containing the token appends exactly one
row at the end: the size grows by one, every previously stored row is
unchanged and in its original order, and the single new row holds the two
people followed by the token (when the token string is truthy). -/
theorem C9_append_frame (person1 person2 : String)
    (rows : List (List String)) (ts : String)
    (h : history_contains_ts rows ts = false) :
    get_history_size (append_to_history person1 person2 rows (some ts)) =
      get_history_size rows + 1 ∧
    (append_to_history person1 person2 rows (some ts)).take rows.length =
      rows ∧
    (append_to_history person1 person2 rows (some ts)).drop rows.length =
      [[person1, person2] ++ (if ts = "" then [] else [ts])] := by
  unfold append_to_history get_history_size
  refine ⟨by simp, ?_, ?_⟩
  · simp
  · simp

/-- C9, witness: the frame property applied to a concrete store and a
fresh token. -/
theorem C9_append_frame_witness :
    get_history_size (append_to_history "A" "B" [["X", "Y"]] (some "t9")) =
      get_history_size [["X", "Y"]] + 1 ∧
    (append_to_history "A" "B" [["X", "Y"]] (some "t9")).take
      [["X", "Y"]].length = [["X", "Y"]] ∧
    (append_to_history "A" "B" [["X", "Y"]] (some "t9")).drop
      [["X", "Y"]].length = [["A", "B"] ++ (if "t9" = "" then [] else ["t9"])] :=
  C9_append_frame "A" "B" [["X", "Y"]] "t9" (by rfl)

/-! ### Selection lemmas (Python `min` and the matching optimizer) -/

theorem selectBest_mem {α : Type} (btr : α → α → Bool) (init : α)
    (l : List α) : selectBest btr init l = init ∨ selectBest btr init l ∈ l := by
  induction l generalizing init with
  | nil => exact Or.inl rfl
  | cons x xs ih =>
    unfold selectBest at *
    simp only [List.foldl_cons]
    by_cases hx : btr x init = true
    · rw [if_pos hx]
      rcases ih x with h | h
      · right; rw [h]; exact List.mem_cons_self x xs
      · right; exact List.mem_cons_of_mem x h
    · rw [if_neg hx]
      rcases ih init with h | h
      · left; exact h
      · right; exact List.mem_cons_of_mem x h

theorem selectBest_chain {α : Type} (btr : α → α → Bool)
    (htrans : ∀ a b c, btr a b = true → btr b c = true → btr a c = true)
    (init : α) (l : List α) :
    selectBest btr init l = init ∨ btr (selectBest btr init l) init = true := by
  induction l generalizing init with
  | nil => exact Or.inl rfl
  | cons x xs ih =>
    unfold selectBest at *
    simp only [List.foldl_cons]
    by_cases hx : btr x init = true
    · rw [if_pos hx]
      rcases ih x with h | h
      · right; rw [h]; exact hx
      · right; exact htrans _ _ _ h hx
    · rw [if_neg hx]
      exact ih init

theorem selectBest_not_better {α : Type} (btr : α → α → Bool)
    (htrans : ∀ a b c, btr a b = true → btr b c = true → btr a c = true)
    (hirrefl : ∀ a, btr a a = false)
    (init : α) (l : List α) :
    ∀ m ∈ l, btr m (selectBest btr init l) = false := by
  induction l generalizing init with
  | nil => intro m hm; cases hm
  | cons x xs ih =>
    intro m hm
    have hstep : selectBest btr init (x :: xs) =
        selectBest btr (if btr x init then x else init) xs := by
      unfold selectBest
      simp only [List.foldl_cons]
    rw [hstep]
    rcases List.mem_cons.mp hm with rfl | hm'
    · cases hres : btr m (selectBest btr (if btr m init then m else init) xs) with
      | false => rfl
      | true =>
        exfalso
        rcases selectBest_chain btr htrans (if btr m init then m else init) xs with h | h
        · rw [h] at hres
          by_cases hx : btr m init = true
          · rw [if_pos hx] at hres
            rw [hirrefl m] at hres; cases hres
          · rw [if_neg hx] at hres
            exact hx hres
        · by_cases hx : btr m init = true
          · rw [if_pos hx] at hres h
            have := htrans _ _ _ hres h
            rw [hirrefl m] at this; cases this
          · rw [if_neg hx] at hres h
            exact hx (htrans _ _ _ hres h)
    · exact ih _ m hm'

theorem pymin_spec {α : Type} (key : α → Nat) (x : α) (xs : List α) :
    ∃ r, pymin key (x :: xs) = .ok r ∧ r ∈ x :: xs ∧
      ∀ m ∈ x :: xs, key r ≤ key m := by
  have htrans : ∀ a b c : α, decide (key a < key b) = true →
      decide (key b < key c) = true → decide (key a < key c) = true := by
    intro a b c h1 h2
    simp only [decide_eq_true_eq] at *
    omega
  have hirrefl : ∀ a : α, decide (key a < key a) = false := by
    intro a; simp
  refine ⟨selectBest (fun m b => decide (key m < key b)) x xs, rfl, ?_, ?_⟩
  · rcases selectBest_mem (fun m b => decide (key m < key b)) x xs with h | h
    · rw [h]; exact List.mem_cons_self x xs
    · exact List.mem_cons_of_mem x h
  · intro m hm
    rcases List.mem_cons.mp hm with rfl | hm'
    · rcases selectBest_chain (fun m b => decide (key m < key b)) htrans m xs
        with h | h
      · rw [h]
      · simp only [decide_eq_true_eq] at h
        omega
    · have := selectBest_not_better (fun m b => decide (key m < key b))
        htrans hirrefl x xs m hm'
      simp only [decide_eq_false_iff_not] at this
      omega

/-! ### Claim C5: solving a size-1 registry -/

/-- C5, counterexample: with a single registered person the solver is not
rejected up front with an `InsufficientRosterError` (no such error exists
in the code); it reaches triplet formation with an empty matching and
fails there with Python's `ValueError` from `min()` over an empty
sequence. -/
theorem C5_counterexample :
    make_assignment [0] [] = .error "min() arg is an empty sequence" := rfl

/-! The amended C5 theorem appears later in the file, after the graph
lemmas it depends on. -/

/-! ### Claim C7: triplet resolution -/

theorem form_triplet_groups_spec (matching : List (Nat × Nat))
    (unmatched_id : Nat) (meeting_counts : List ((Nat × Nat) × Nat))
    (h : matching ≠ []) :
    ∃ min_pair, min_pair ∈ matching ∧
      (∀ p ∈ matching, tripletKey meeting_counts unmatched_id min_pair ≤
        tripletKey meeting_counts unmatched_id p) ∧
      form_triplet_groups matching unmatched_id meeting_counts =
        .ok (matching.map (fun pair =>
          if pair = min_pair then [pair.1, pair.2, unmatched_id]
          else [pair.1, pair.2])) := by
  match matching, h with
  | x :: xs, _ =>
    obtain ⟨r, hr, hmem, hmin⟩ :=
      pymin_spec (tripletKey meeting_counts unmatched_id) x xs
    refine ⟨r, hmem, hmin, ?_⟩
    unfold form_triplet_groups
    rw [hr]

/-- C7: when a leftover id is resolved against a non-empty matching, the
chosen pair is a matched pair minimizing
`count(u,v) + count(u,leftover) + count(v,leftover)` (0 for absent
pairs), its group becomes the triplet `(u, v, leftover)`, and every other
matched pair stays a group of size 2. -/
theorem C7_triplet_formation (matching : List (Nat × Nat))
    (unmatched_id : Nat) (meeting_counts : List ((Nat × Nat) × Nat))
    (h : matching ≠ []) :
    ∃ min_pair, min_pair ∈ matching ∧
      (∀ p ∈ matching, tripletKey meeting_counts unmatched_id min_pair ≤
        tripletKey meeting_counts unmatched_id p) ∧
      form_triplet_groups matching unmatched_id meeting_counts =
        .ok (matching.map (fun pair =>
          if pair = min_pair then [pair.1, pair.2, unmatched_id]
          else [pair.1, pair.2])) :=
  form_triplet_groups_spec matching unmatched_id meeting_counts h

/-- C7, witness: the triplet theorem applied to a concrete matching where
the pair `(2, 3)` has met before, so the fresh pair `(0, 1)` absorbs the
leftover id 4. -/
theorem C7_witness :
    ∃ min_pair, min_pair ∈ [(0, 1), (2, 3)] ∧
      (∀ p ∈ [(0, 1), (2, 3)],
        tripletKey [((2, 3), 1)] 4 min_pair ≤ tripletKey [((2, 3), 1)] 4 p) ∧
      form_triplet_groups [(0, 1), (2, 3)] 4 [((2, 3), 1)] =
        .ok ([(0, 1), (2, 3)].map (fun pair =>
          if pair = min_pair then [pair.1, pair.2, 4]
          else [pair.1, pair.2])) :=
  C7_triplet_formation [(0, 1), (2, 3)] 4 [((2, 3), 1)] (by decide)

/-! ### Claim C8: aggregation is symmetric, total, and positive -/

theorem normalize_swap (a b : Nat) : normalize (a, b) = normalize (b, a) := by
  simp only [normalize]
  split_ifs with h1 h2 h2
  · have : a = b := by omega
    subst this; rfl
  · rfl
  · rfl
  · omega

theorem mem_firstKeys {α : Type} [DecidableEq α] (l : List α) (x : α) :
    x ∈ firstKeys l ↔ x ∈ l := by
  induction l with
  | nil => simp [firstKeys]
  | cons a as ih =>
    simp only [firstKeys, List.mem_cons, List.mem_filter]
    constructor
    · rintro (rfl | ⟨hx, _⟩)
      · exact .inl rfl
      · exact .inr (ih.mp hx)
    · rintro (rfl | hx)
      · exact .inl rfl
      · by_cases hxa : x = a
        · exact .inl hxa
        · exact .inr ⟨ih.mpr hx, by simp [hxa]⟩

/-- C8: the meeting-count aggregation normalizes each pair by sorting, so
`(A,B)` and `(B,A)` read the same bucket; every emitted pair has count at
least 1; and a history row whose identifier is absent from the registry
mapping is skipped and affects nothing. -/
theorem C8_aggregation :
    (∀ a b : Nat, normalize (a, b) = normalize (b, a)) ∧
    (∀ history : List (Nat × Nat), ∀ a b : Nat,
      get_past_meetings_count (a, b) (get_past_meeting_counts history) =
        get_past_meetings_count (b, a) (get_past_meeting_counts history)) ∧
    (∀ (history : List (Nat × Nat)) (k : Nat × Nat) (c : Nat),
      (k, c) ∈ get_past_meeting_counts history → 1 ≤ c) ∧
    (∀ (registry : List Person) (mapping : List (String × Nat))
      (rows : List (List String)) (row : List String) (p1 p2 : String)
      (ts : Option String),
      build_identifier_mapping registry = .ok mapping →
      parse_csv_row row = some (p1, p2, ts) →
      (lookupId mapping p1 = none ∨ lookupId mapping p2 = none) →
      parse_history registry (row :: rows) = parse_history registry rows) := by
  refine ⟨normalize_swap, ?_, ?_, ?_⟩
  · intro history a b
    unfold get_past_meetings_count
    rw [normalize_swap]
  · intro history k c hmem
    unfold get_past_meeting_counts at hmem
    rcases List.mem_map.mp hmem with ⟨k', hk', hkc⟩
    obtain ⟨rfl, rfl⟩ : k' = k ∧ (history.map normalize).count k' = c := by
      constructor
      · exact congrArg Prod.fst hkc
      · exact congrArg Prod.snd hkc
    exact List.count_pos_iff.mpr ((mem_firstKeys _ _).mp hk')
  · intro registry mapping rows row p1 p2 ts hmap hrow hnone
    unfold parse_history
    rw [hmap]
    dsimp only
    have : historyRows mapping (row :: rows) = historyRows mapping rows := by
      conv_lhs => unfold historyRows
      rw [hrow]
      dsimp only
      rcases hnone with h1 | h2
      · rw [h1]
      · cases hl1 : lookupId mapping p1 with
        | none => rfl
        | some id1 => rw [h2]
    rw [this]

/-- C8, witness: the aggregation theorem instantiated at concrete data:
a swapped pair, a one-entry history, a counted pair, and a history row
naming the unregistered identifier "ghost". -/
theorem C8_witness :
    normalize (3, 1) = normalize (1, 3) ∧
    get_past_meetings_count (0, 1) (get_past_meeting_counts [(1, 0)]) =
      get_past_meetings_count (1, 0) (get_past_meeting_counts [(1, 0)]) ∧
    (1 : Nat) ≤ 1 ∧
    parse_history [⟨"A", "a@x"⟩] [["ghost", "A"], ["A", "a@x"]] =
      parse_history [⟨"A", "a@x"⟩] [["A", "a@x"]] :=
  ⟨C8_aggregation.1 3 1,
   C8_aggregation.2.1 [(1, 0)] 0 1,
   C8_aggregation.2.2.1 [(1, 0)] (0, 1) 1 (by decide),
   C8_aggregation.2.2.2 [⟨"A", "a@x"⟩] [("A", 0), ("a@x", 0)]
     [["A", "a@x"]] ["ghost", "A"] "ghost" "A" none (by rfl) (by rfl)
     (Or.inl (by rfl))⟩

/-! ### Claim C10: self-pairs in history and the matching graph -/

theorem sameEdge_refl (p : Nat × Nat) : sameEdge p p = true := by
  simp [sameEdge]

theorem graph_has_edge_add_edge_mono (g : List ((Nat × Nat) × Int))
    (q p : Nat × Nat) (w : Int) (h : graph_has_edge g p = true) :
    graph_has_edge (add_edge g q w) p = true := by
  unfold graph_has_edge add_edge
  unfold graph_has_edge at h
  split_ifs with hq
  · rcases List.any_eq_true.mp h with ⟨e, he, hep⟩
    refine List.any_eq_true.mpr ?_
    refine ⟨if sameEdge e.1 q then (e.1, w) else e, List.mem_map_of_mem _ he, ?_⟩
    split_ifs <;> simpa using hep
  · rcases List.any_eq_true.mp h with ⟨e, he, hep⟩
    exact List.any_eq_true.mpr ⟨e, List.mem_append_left _ he, hep⟩

theorem graph_has_edge_add_edge_self (g : List ((Nat × Nat) × Int))
    (p : Nat × Nat) (w : Int) :
    graph_has_edge (add_edge g p w) p = true := by
  unfold graph_has_edge add_edge
  split_ifs with hq
  · rcases List.any_eq_true.mp hq with ⟨e, he, hep⟩
    refine List.any_eq_true.mpr ?_
    refine ⟨if sameEdge e.1 p then (e.1, w) else e, List.mem_map_of_mem _ he, ?_⟩
    rw [if_pos hep]
    simpa using hep
  · refine List.any_eq_true.mpr ?_
    exact ⟨(p, w), List.mem_append_right _ (by simp), sameEdge_refl p⟩

theorem graph_has_edge_foldl (counts : List ((Nat × Nat) × Nat)) :
    ∀ (g : List ((Nat × Nat) × Int)) (p : Nat × Nat),
      ((∃ c, (p, c) ∈ counts) ∨ graph_has_edge g p = true) →
      graph_has_edge
        (counts.foldl (fun g pc => add_edge g pc.1 (-(pc.2 : Int))) g) p = true := by
  induction counts with
  | nil =>
    intro g p h
    rcases h with ⟨c, hc⟩ | h
    · cases hc
    · exact h
  | cons pc rest ih =>
    intro g p h
    simp only [List.foldl_cons]
    rcases h with ⟨c, hc⟩ | h
    · rcases List.mem_cons.mp hc with heq | hmem
      · refine ih _ p (Or.inr ?_)
        have hfst : pc.1 = p := by
          have := congrArg Prod.fst heq
          simpa using this.symm
        rw [hfst]
        exact graph_has_edge_add_edge_self g p _
      · exact ih _ p (Or.inl ⟨c, hmem⟩)
    · exact ih _ p (Or.inr (graph_has_edge_add_edge_mono g pc.1 p _ h))

/-- C10: history parsing does not require a row's two identifiers to be
distinct — when both resolve to the same registered id `i`, the self-pair
`(i, i)` is included in the parsed history — and `make_assignment`'s
graph construction then records `(i, i)` as an edge from `i` to itself
(a self-loop) in the matching graph. -/
theorem C10_self_pair (registry : List Person)
    (mapping : List (String × Nat)) (rows : List (List String))
    (row : List String) (s1 s2 : String) (ts : Option String) (i : Nat)
    (ids : List Nat)
    (hmap : build_identifier_mapping registry = .ok mapping)
    (hrow : parse_csv_row row = some (s1, s2, ts))
    (h1 : lookupId mapping s1 = some i)
    (h2 : lookupId mapping s2 = some i) :
    parse_history registry (row :: rows) =
      .ok ((i, i) :: historyRows mapping rows) ∧
    ∀ history : List (Nat × Nat), (i, i) ∈ history →
      graph_has_edge
        (build_graph_edges ids (get_past_meeting_counts history)) (i, i) = true := by
  constructor
  · have hstep : historyRows mapping (row :: rows) =
        (i, i) :: historyRows mapping rows := by
      conv_lhs => unfold historyRows
      rw [hrow]
      dsimp only
      rw [h1, h2]
    unfold parse_history
    rw [hmap]
    dsimp only
    rw [hstep]
  · intro history hmem
    unfold build_graph_edges
    refine graph_has_edge_foldl _ _ _ (Or.inl ?_)
    refine ⟨(history.map normalize).count (i, i), ?_⟩
    unfold get_past_meeting_counts
    refine List.mem_map.mpr ⟨(i, i), ?_, rfl⟩
    refine (mem_firstKeys _ _).mpr ?_
    refine List.mem_map.mpr ⟨(i, i), hmem, ?_⟩
    simp [normalize]

/-- C10, witness: a one-person registry whose name and email resolve to
id 0; the history row naming both yields the self-pair `(0, 0)` and the
built graph contains the self-loop at 0. -/
theorem C10_witness :
    parse_history [⟨"A", "a@x"⟩] [["A", "a@x"]] = .ok [(0, 0)] ∧
    graph_has_edge
      (build_graph_edges [0] (get_past_meeting_counts [(0, 0)])) (0, 0) = true :=
  ⟨(C10_self_pair [⟨"A", "a@x"⟩] [("A", 0), ("a@x", 0)] [] ["A", "a@x"]
      "A" "a@x" none 0 [0] (by rfl) (by rfl) (by rfl) (by rfl)).1,
   (C10_self_pair [⟨"A", "a@x"⟩] [("A", 0), ("a@x", 0)] [] ["A", "a@x"]
      "A" "a@x" none 0 [0] (by rfl) (by rfl) (by rfl) (by rfl)).2
     [(0, 0)] (by decide)⟩

/-! ### Matching enumeration lemmas -/

theorem matchings_nil : matchings [] = [[]] := rfl

theorem matchingsFuel_nil (f : Nat) : matchingsFuel f [] = [[]] := by
  cases f <;> rfl

theorem matchingsFuel_irrel :
    ∀ (f g : Nat) (l : List Nat), l.length ≤ f → l.length ≤ g →
      matchingsFuel f l = matchingsFuel g l := by
  intro f
  induction f with
  | zero =>
    intro g l hf _
    match l, hf with
    | [], _ => rw [matchingsFuel_nil, matchingsFuel_nil]
  | succ f ih =>
    intro g l hf hg
    match l with
    | [] => rw [matchingsFuel_nil, matchingsFuel_nil]
    | x :: xs =>
      match g, hg with
      | g' + 1, hg =>
        show matchingsFuel f xs ++ xs.flatMap (fun y =>
            (matchingsFuel f (xs.erase y)).map (fun m => (x, y) :: m)) =
          matchingsFuel g' xs ++ xs.flatMap (fun y =>
            (matchingsFuel g' (xs.erase y)).map (fun m => (x, y) :: m))
        have hfxs : xs.length ≤ f := by
          simp only [List.length_cons] at hf; omega
        have hgxs : xs.length ≤ g' := by
          simp only [List.length_cons] at hg; omega
        have hfun : (fun y => (matchingsFuel f (xs.erase y)).map
              (fun m => (x, y) :: m)) =
            (fun y => (matchingsFuel g' (xs.erase y)).map
              (fun m => (x, y) :: m)) := by
          funext y
          have he : (xs.erase y).length ≤ xs.length :=
            (List.erase_sublist y xs).length_le
          rw [ih g' (xs.erase y) (le_trans he hfxs) (le_trans he hgxs)]
        rw [ih g' xs hfxs hgxs, hfun]

theorem matchings_cons (x : Nat) (xs : List Nat) :
    matchings (x :: xs) = matchings xs ++ xs.flatMap (fun y =>
      (matchings (xs.erase y)).map (fun m => (x, y) :: m)) := by
  show matchingsFuel (xs.length + 1) (x :: xs) = _
  show matchingsFuel xs.length xs ++ xs.flatMap (fun y =>
      (matchingsFuel xs.length (xs.erase y)).map (fun m => (x, y) :: m)) = _
  have hfun : (fun y => (matchingsFuel xs.length (xs.erase y)).map
        (fun m => (x, y) :: m)) =
      (fun y => (matchings (xs.erase y)).map (fun m => (x, y) :: m)) := by
    funext y
    have he : (xs.erase y).length ≤ xs.length :=
      (List.erase_sublist y xs).length_le
    rw [matchingsFuel_irrel xs.length (xs.erase y).length (xs.erase y) he
      le_rfl]
    rfl
  rw [hfun]
  rfl

theorem nil_mem_matchings (l : List Nat) : [] ∈ matchings l := by
  induction l with
  | nil => rw [matchings_nil]; exact List.mem_singleton_self _
  | cons x xs ih =>
    rw [matchings_cons]
    exact List.mem_append_left _ ih

theorem verts_nil : verts [] = [] := rfl

theorem verts_cons (p : Nat × Nat) (m : List (Nat × Nat)) :
    verts (p :: m) = p.1 :: p.2 :: verts m := rfl

theorem verts_length (m : List (Nat × Nat)) :
    (verts m).length = 2 * m.length := by
  induction m with
  | nil => rfl
  | cons p rest ih =>
    rw [verts_cons]
    simp only [List.length_cons, ih, List.length_cons]
    omega

theorem fst_mem_verts {m : List (Nat × Nat)} {p : Nat × Nat} (h : p ∈ m) :
    p.1 ∈ verts m := by
  unfold verts
  exact List.mem_flatten.mpr ⟨[p.1, p.2], List.mem_map_of_mem _ h, by simp⟩

theorem snd_mem_verts {m : List (Nat × Nat)} {p : Nat × Nat} (h : p ∈ m) :
    p.2 ∈ verts m := by
  unfold verts
  exact List.mem_flatten.mpr ⟨[p.1, p.2], List.mem_map_of_mem _ h, by simp⟩

theorem nodup_of_verts_nodup {m : List (Nat × Nat)}
    (h : (verts m).Nodup) : m.Nodup := by
  induction m with
  | nil => exact List.nodup_nil
  | cons p rest ih =>
    rw [verts_cons] at h
    obtain ⟨hp1, h2⟩ := List.nodup_cons.mp h
    obtain ⟨_, h3⟩ := List.nodup_cons.mp h2
    refine List.nodup_cons.mpr ⟨?_, ih h3⟩
    intro hmem
    exact hp1 (List.mem_cons_of_mem _ (fst_mem_verts hmem))

theorem mem_verts_iff {m : List (Nat × Nat)} {a : Nat} :
    a ∈ verts m ↔ ∃ p ∈ m, p.1 = a ∨ p.2 = a := by
  unfold verts
  rw [List.mem_flatten]
  constructor
  · rintro ⟨lp, hlp, ha⟩
    rcases List.mem_map.mp hlp with ⟨p, hp, rfl⟩
    simp only [List.mem_cons, List.not_mem_nil, or_false] at ha
    rcases ha with h | h
    · exact ⟨p, hp, Or.inl h.symm⟩
    · exact ⟨p, hp, Or.inr h.symm⟩
  · rintro ⟨p, hp, h | h⟩
    · exact ⟨[p.1, p.2], List.mem_map_of_mem _ hp, by simp [h]⟩
    · exact ⟨[p.1, p.2], List.mem_map_of_mem _ hp, by simp [h]⟩

theorem matchings_sound :
    ∀ (n : Nat) (l : List Nat), l.length = n → l.Nodup →
      ∀ m ∈ matchings l, IsMatching l m := by
  intro n
  induction n using Nat.strong_induction_on with
  | _ n ih =>
    intro l hlen hnd m hm
    match l with
    | [] =>
      rw [matchings_nil] at hm
      rcases List.mem_singleton.mp hm with rfl
      exact ⟨List.nodup_nil, by intro a ha; cases ha⟩
    | x :: xs =>
      rw [matchings_cons] at hm
      rcases List.mem_append.mp hm with hm1 | hm2
      · have hs := ih xs.length (by rw [← hlen]; simp)
          xs rfl hnd.of_cons m hm1
        exact ⟨hs.1, hs.2.trans (List.subset_cons_self x xs)⟩
      · rcases List.mem_flatMap.mp hm2 with ⟨y, hy, hm3⟩
        rcases List.mem_map.mp hm3 with ⟨m', hm', rfl⟩
        have hery : (xs.erase y).length = xs.length - 1 :=
          List.length_erase_of_mem hy
        have hpos : 0 < xs.length := List.length_pos_of_mem hy
        have hernd : (xs.erase y).Nodup := hnd.of_cons.erase y
        have hs := ih (xs.erase y).length
          (by rw [← hlen]; simp only [List.length_cons]; omega)
          (xs.erase y) rfl hernd m' hm'
        have hxxs : x ∉ xs := (List.nodup_cons.mp hnd).1
        have hxy : x ≠ y := fun h => hxxs (h ▸ hy)
        have hsubxs : verts m' ⊆ xs :=
          fun a ha => List.erase_subset y xs (hs.2 ha)
        have hxv : x ∉ verts m' := fun h => hxxs (hsubxs h)
        have hyv : y ∉ verts m' := fun h => hnd.of_cons.not_mem_erase (hs.2 h)
        constructor
        · rw [verts_cons]
          refine List.nodup_cons.mpr ⟨?_, List.nodup_cons.mpr ⟨hyv, hs.1⟩⟩
          simp only [List.mem_cons]
          rintro (rfl | hc)
          · exact hxy rfl
          · exact hxv hc
        · rw [verts_cons]
          intro a ha
          rcases List.mem_cons.mp ha with rfl | ha'
          · exact List.mem_cons_self _ _
          rcases List.mem_cons.mp ha' with rfl | ha''
          · exact List.mem_cons_of_mem _ hy
          · exact List.mem_cons_of_mem _ (hsubxs ha'')

theorem matchings_sound' {l : List Nat} {m : List (Nat × Nat)}
    (hnd : l.Nodup) (hm : m ∈ matchings l) : IsMatching l m :=
  matchings_sound l.length l rfl hnd m hm

theorem matchings_complete :
    ∀ (n : Nat) (l : List Nat), l.length = n → l.Nodup →
      ∀ m, IsMatching l m →
        ∃ m' ∈ matchings l, (m'.map normalize).Perm (m.map normalize) := by
  intro n
  induction n using Nat.strong_induction_on with
  | _ n ih =>
    intro l hlen hnd m hM
    match l with
    | [] =>
      have hm0 : m = [] := by
        cases m with
        | nil => rfl
        | cons p rest =>
          exact absurd (hM.2 (fst_mem_verts (List.mem_cons_self p rest)))
            (List.not_mem_nil _)
      subst hm0
      exact ⟨[], nil_mem_matchings [], by simp⟩
    | x :: xs =>
      by_cases hx : x ∈ verts m
      · rcases mem_verts_iff.mp hx with ⟨p, hp, hpx⟩
        obtain ⟨s, t, hmst⟩ := List.append_of_mem hp
        have hperm : m.Perm (p :: (s ++ t)) := by
          rw [hmst]; exact List.perm_middle
        have hvperm : (verts m).Perm (p.1 :: p.2 :: verts (s ++ t)) := by
          have := (hperm.map (fun q => [q.1, q.2])).flatten
          simpa [verts] using this
        have hvnd' : (p.1 :: p.2 :: verts (s ++ t)).Nodup :=
          (hvperm.nodup_iff).mp hM.1
        obtain ⟨hp1, hnd2⟩ := List.nodup_cons.mp hvnd'
        obtain ⟨hp2, hnd3⟩ := List.nodup_cons.mp hnd2
        have hp12 : p.1 ≠ p.2 := fun h =>
          hp1 (by rw [h]; exact List.mem_cons_self _ _)
        have hsubv : verts (s ++ t) ⊆ verts m := fun a ha =>
          (hvperm.mem_iff).mpr
            (List.mem_cons_of_mem _ (List.mem_cons_of_mem _ ha))
        have hp1nv : p.1 ∉ verts (s ++ t) := fun hc =>
          hp1 (List.mem_cons_of_mem _ hc)
        have hmainstep : ∀ y : Nat, (y = p.2 ∧ p.1 = x) ∨ (y = p.1 ∧ p.2 = x) →
            ∃ m' ∈ matchings (x :: xs),
              (m'.map normalize).Perm (m.map normalize) := by
          rintro y hy
          have hxny : x ≠ y := by
            rcases hy with ⟨rfl, rfl⟩ | ⟨rfl, rfl⟩
            · exact hp12
            · exact fun h => hp12 h.symm
          have hynv : y ∉ verts (s ++ t) := by
            rcases hy with ⟨rfl, _⟩ | ⟨rfl, _⟩
            · exact hp2
            · exact hp1nv
          have hxnv : x ∉ verts (s ++ t) := by
            rcases hy with ⟨_, rfl⟩ | ⟨_, rfl⟩
            · exact hp1nv
            · exact hp2
          have hyv : y ∈ verts m := by
            rcases hy with ⟨rfl, _⟩ | ⟨rfl, _⟩
            · exact snd_mem_verts hp
            · exact fst_mem_verts hp
          have hyxs : y ∈ xs := by
            rcases List.mem_cons.mp (hM.2 hyv) with h | h
            · exact absurd h.symm hxny
            · exact h
          have hnormxy : normalize (x, y) = normalize p := by
            rcases hy with ⟨rfl, hx1⟩ | ⟨rfl, hx2⟩
            · rw [← hx1]
            · rw [normalize_swap, ← hx2]
          have hMer : IsMatching (xs.erase y) (s ++ t) := by
            refine ⟨hnd3, ?_⟩
            intro a ha
            have hav : a ∈ verts m := hsubv ha
            have hax : a ≠ x := fun h => hxnv (h ▸ ha)
            have hay : a ≠ y := fun h => hynv (h ▸ ha)
            have haxs : a ∈ xs := by
              rcases List.mem_cons.mp (hM.2 hav) with h | h
              · exact absurd h hax
              · exact h
            exact (List.mem_erase_of_ne hay).mpr haxs
          have hery : (xs.erase y).length = xs.length - 1 :=
            List.length_erase_of_mem hyxs
          have hpos : 0 < xs.length := List.length_pos_of_mem hyxs
          obtain ⟨m'', hm'', hperm''⟩ := ih (xs.erase y).length
            (by rw [← hlen]; simp only [List.length_cons]; omega)
            (xs.erase y) rfl (hnd.of_cons.erase y) (s ++ t) hMer
          refine ⟨(x, y) :: m'', ?_, ?_⟩
          · rw [matchings_cons]
            refine List.mem_append_right _ (List.mem_flatMap.mpr
              ⟨y, hyxs, List.mem_map_of_mem _ hm''⟩)
          · have h1 : (((x, y) :: m'').map normalize) =
                normalize (x, y) :: m''.map normalize := rfl
            rw [h1, hnormxy]
            exact (List.Perm.cons _ hperm'').trans (hperm.map normalize).symm
        rcases hpx with hpx | hpx
        · exact hmainstep p.2 (Or.inl ⟨rfl, hpx⟩)
        · exact hmainstep p.1 (Or.inr ⟨rfl, hpx⟩)
      · have hMxs : IsMatching xs m := by
          refine ⟨hM.1, ?_⟩
          intro a ha
          rcases List.mem_cons.mp (hM.2 ha) with h | h
          · exact absurd (h ▸ ha) hx
          · exact h
        obtain ⟨m', hm', hperm'⟩ := ih xs.length
          (by rw [← hlen]; simp) xs rfl hnd.of_cons m hMxs
        exact ⟨m', by rw [matchings_cons]; exact List.mem_append_left _ hm',
          hperm'⟩

theorem matchings_complete' {l : List Nat} {m : List (Nat × Nat)}
    (hnd : l.Nodup) (hM : IsMatching l m) :
    ∃ m' ∈ matchings l, (m'.map normalize).Perm (m.map normalize) :=
  matchings_complete l.length l rfl hnd m hM

/-! ### A near-perfect matching always exists on the complete graph -/

theorem pairUp_length :
    ∀ (n : Nat) (l : List Nat), l.length = n →
      (pairUp l).length = l.length / 2 := by
  intro n
  induction n using Nat.strong_induction_on with
  | _ n ih =>
    intro l hlen
    match l with
    | [] => rfl
    | [a] => simp [pairUp]
    | a :: b :: rest =>
      have hr := ih rest.length
        (by rw [← hlen]; simp only [List.length_cons]; omega) rest rfl
      show ((a, b) :: pairUp rest).length = (a :: b :: rest).length / 2
      simp only [List.length_cons, hr]
      omega

theorem pairUp_verts_sublist :
    ∀ (n : Nat) (l : List Nat), l.length = n →
      List.Sublist (verts (pairUp l)) l := by
  intro n
  induction n using Nat.strong_induction_on with
  | _ n ih =>
    intro l hlen
    match l with
    | [] => exact List.nil_sublist _
    | [a] =>
      have h0 : pairUp [a] = [] := by simp [pairUp]
      rw [h0]
      exact List.nil_sublist _
    | a :: b :: rest =>
      have hr := ih rest.length
        (by rw [← hlen]; simp only [List.length_cons]; omega) rest rfl
      show List.Sublist (verts ((a, b) :: pairUp rest)) (a :: b :: rest)
      rw [verts_cons]
      exact (hr.cons₂ b).cons₂ a

theorem pairUp_isMatching (l : List Nat) (hnd : l.Nodup) :
    IsMatching l (pairUp l) :=
  ⟨(pairUp_verts_sublist l.length l rfl).nodup hnd,
   (pairUp_verts_sublist l.length l rfl).subset⟩

/-! ### Properties of the modelled matching optimizer -/

theorem betterMatching_trans (counts : List ((Nat × Nat) × Nat)) :
    ∀ a b c, betterMatching counts a b = true →
      betterMatching counts b c = true → betterMatching counts a c = true := by
  intro a b c h1 h2
  simp only [betterMatching, Bool.or_eq_true, Bool.and_eq_true,
    decide_eq_true_eq] at h1 h2 ⊢
  rcases h1 with h1 | ⟨h1a, h1b⟩ <;> rcases h2 with h2 | ⟨h2a, h2b⟩
  · left; omega
  · left; omega
  · left; omega
  · right; exact ⟨h1a.trans h2a, lt_trans h2b h1b⟩

theorem betterMatching_irrefl (counts : List ((Nat × Nat) × Nat)) :
    ∀ a, betterMatching counts a a = false := by
  intro a
  simp [betterMatching]

theorem counts_keys_within {ids : List Nat} {history : List (Nat × Nat)}
    (hw : ∀ p ∈ history, p.1 ∈ ids ∧ p.2 ∈ ids) :
    ∀ kc ∈ get_past_meeting_counts history,
      kc.1.1 ∈ ids ∧ kc.1.2 ∈ ids := by
  intro kc hkc
  unfold get_past_meeting_counts at hkc
  rcases List.mem_map.mp hkc with ⟨k, hk, hkeq⟩
  have hk1 : kc.1 = k := by rw [← hkeq]
  rw [hk1]
  have hk2 : k ∈ history.map normalize := (mem_firstKeys _ _).mp hk
  rcases List.mem_map.mp hk2 with ⟨q, hq, hq2⟩
  rw [← hq2]
  have hqin := hw q hq
  unfold normalize
  split_ifs
  · exact hqin
  · exact ⟨hqin.2, hqin.1⟩

theorem add_node_mem {ns : List Nat} {v : Nat} (h : v ∈ ns) :
    add_node ns v = ns := by
  unfold add_node
  rw [if_pos h]

theorem graph_nodes_of_within (ids : List Nat) :
    ∀ counts : List ((Nat × Nat) × Nat),
      (∀ kc ∈ counts, kc.1.1 ∈ ids ∧ kc.1.2 ∈ ids) →
      graph_nodes ids counts = ids := by
  intro counts
  induction counts with
  | nil => intro _; rfl
  | cons pc rest ih =>
    intro h
    have h1 := h pc (List.mem_cons_self _ _)
    unfold graph_nodes
    rw [List.foldl_cons, add_node_mem h1.1, add_node_mem h1.2]
    exact ih (fun kc hkc => h kc (List.mem_cons_of_mem _ hkc))

theorem graph_matchings_of_within {ids : List Nat}
    {counts : List ((Nat × Nat) × Nat)} (hnd : ids.Nodup)
    (h : ∀ kc ∈ counts, kc.1.1 ∈ ids ∧ kc.1.2 ∈ ids) :
    graph_matchings ids counts = matchings ids := by
  unfold graph_matchings
  rw [graph_nodes_of_within ids counts h]
  apply List.filter_eq_self.mpr
  intro m hm
  rw [List.all_eq_true]
  intro p hp
  have hM := matchings_sound' hnd hm
  have h1 : p.1 ∈ ids := hM.2 (fst_mem_verts hp)
  have h2 : p.2 ∈ ids := hM.2 (snd_mem_verts hp)
  unfold isEdge
  simp [h1, h2]

theorem max_weight_matching_mem (ids : List Nat)
    (history : List (Nat × Nat)) (hnd : ids.Nodup)
    (hw : ∀ p ∈ history, p.1 ∈ ids ∧ p.2 ∈ ids) :
    max_weight_matching ids (get_past_meeting_counts history) ∈
      matchings ids := by
  unfold max_weight_matching
  rw [graph_matchings_of_within hnd (counts_keys_within hw)]
  rcases selectBest_mem (betterMatching (get_past_meeting_counts history))
    [] (matchings ids) with h | h
  · rw [h]; exact nil_mem_matchings ids
  · exact h

theorem max_weight_matching_not_better (ids : List Nat)
    (history : List (Nat × Nat)) (hnd : ids.Nodup)
    (hw : ∀ p ∈ history, p.1 ∈ ids ∧ p.2 ∈ ids) :
    ∀ m ∈ matchings ids,
      betterMatching (get_past_meeting_counts history) m
        (max_weight_matching ids (get_past_meeting_counts history)) =
        false := by
  unfold max_weight_matching
  rw [graph_matchings_of_within hnd (counts_keys_within hw)]
  exact selectBest_not_better _ (betterMatching_trans _)
    (betterMatching_irrefl _) [] (matchings ids)

theorem of_betterMatching_eq_false {counts : List ((Nat × Nat) × Nat)}
    {m b : List (Nat × Nat)} (h : betterMatching counts m b = false) :
    m.length ≤ b.length ∧ (m.length = b.length →
      totalWeight counts m ≤ totalWeight counts b) := by
  constructor
  · by_contra hlt
    have hbl : b.length < m.length := by omega
    have htrue : betterMatching counts m b = true := by
      unfold betterMatching
      simp [hbl]
    rw [h] at htrue; cases htrue
  · intro heq
    by_contra hlt
    have hw : totalWeight counts b < totalWeight counts m := lt_of_not_le hlt
    have htrue : betterMatching counts m b = true := by
      unfold betterMatching
      simp [heq, hw]
    rw [h] at htrue; cases htrue

theorem totalWeight_eq_neg_totalCost (counts : List ((Nat × Nat) × Nat))
    (m : List (Nat × Nat)) :
    totalWeight counts m = -(totalCost counts m : Int) := by
  induction m with
  | nil => simp [totalWeight, totalCost]
  | cons p rest ih =>
    simp only [totalWeight, totalCost, List.map_cons, List.sum_cons] at ih ⊢
    rw [ih]
    push_cast
    ring

theorem totalCost_map_normalize (counts : List ((Nat × Nat) × Nat))
    (m : List (Nat × Nat)) :
    totalCost counts m =
      ((m.map normalize).map (fun k => countLookup counts k)).sum := by
  unfold totalCost
  rw [List.map_map]
  rfl

theorem totalCost_eq_of_norm_perm {counts : List ((Nat × Nat) × Nat)}
    {m1 m2 : List (Nat × Nat)}
    (h : (m1.map normalize).Perm (m2.map normalize)) :
    totalCost counts m1 = totalCost counts m2 := by
  rw [totalCost_map_normalize, totalCost_map_normalize]
  exact (h.map _).sum_eq

theorem isMatching_two_mul_length_le {ids : List Nat}
    {m : List (Nat × Nat)} (h : IsMatching ids m) :
    2 * m.length ≤ ids.length := by
  have := (List.subperm_of_subset h.1 h.2).length_le
  rw [verts_length] at this
  exact this

theorem max_weight_matching_length (ids : List Nat)
    (history : List (Nat × Nat)) (hnd : ids.Nodup)
    (hw : ∀ p ∈ history, p.1 ∈ ids ∧ p.2 ∈ ids) :
    (max_weight_matching ids (get_past_meeting_counts history)).length =
      ids.length / 2 := by
  have hmem := max_weight_matching_mem ids history hnd hw
  have hM := matchings_sound' hnd hmem
  have hub := isMatching_two_mul_length_le hM
  obtain ⟨m', hm', hperm⟩ := matchings_complete' hnd (pairUp_isMatching ids hnd)
  have hlb := (of_betterMatching_eq_false
    (max_weight_matching_not_better ids history hnd hw m' hm')).1
  have hlen1 : m'.length = (pairUp ids).length := by
    have := hperm.length_eq; simpa using this
  have hpl := pairUp_length ids.length ids rfl
  omega

/-! ### Claim C2: the matching is maximum-cardinality cost-minimal -/

/-- C2, counterexample: for the registry `{0, 1}` and the history pair
`(5, 6)` naming ids outside the registry, the source's `add_edge` adds
nodes 5 and 6, and the computed maximum-cardinality matching is
`{(0, 1), (5, 6)}` — not a matching over the registry ids at all, since
vertex 5 is not a registry id. -/
theorem C2_counterexample :
    max_weight_matching [0, 1] (get_past_meeting_counts [(5, 6)]) =
      [(0, 1), (5, 6)] ∧
    ¬ IsMatching [0, 1] [(0, 1), (5, 6)] := by
  refine ⟨by rfl, ?_⟩
  intro h
  have h5 : (5 : Nat) ∈ verts [(0, 1), (5, 6)] := by decide
  exact absurd (h.2 h5) (by decide)

/-- C2, amended: for a history all of whose pairs lie within the registry
ids (every history produced by `parse_history` does), the matching
computed before triplet resolution is a matching of maximum cardinality
over the complete graph on the registry ids, and among all matchings of
that cardinality its total historical-meeting count is minimal.  For a
history naming foreign ids the computed matching can leave the registry
ids entirely (see the counterexample). -/
theorem C2_matching_optimality (ids : List Nat) (history : List (Nat × Nat))
    (hnd : ids.Nodup) (hw : ∀ p ∈ history, p.1 ∈ ids ∧ p.2 ∈ ids) :
    IsMatching ids
      (max_weight_matching ids (get_past_meeting_counts history)) ∧
    ∀ m, IsMatching ids m →
      m.length ≤
        (max_weight_matching ids (get_past_meeting_counts history)).length ∧
      (m.length =
        (max_weight_matching ids (get_past_meeting_counts history)).length →
        totalCost (get_past_meeting_counts history)
          (max_weight_matching ids (get_past_meeting_counts history)) ≤
        totalCost (get_past_meeting_counts history) m) := by
  have hmem := max_weight_matching_mem ids history hnd hw
  refine ⟨matchings_sound' hnd hmem, ?_⟩
  intro m hM
  obtain ⟨m', hm', hperm⟩ := matchings_complete' hnd hM
  have hnb := of_betterMatching_eq_false
    (max_weight_matching_not_better ids history hnd hw m' hm')
  have hlen : m'.length = m.length := by
    have := hperm.length_eq; simpa using this
  refine ⟨by omega, ?_⟩
  intro heq
  have hw := hnb.2 (by omega)
  rw [totalWeight_eq_neg_totalCost, totalWeight_eq_neg_totalCost] at hw
  have hcm : totalCost (get_past_meeting_counts history) m' =
      totalCost (get_past_meeting_counts history) m :=
    totalCost_eq_of_norm_perm hperm
  omega

/-- C2, witness: the optimality theorem applied to the two-person registry
with one prior meeting and to the concrete rival matching `[(1, 0)]`. -/
theorem C2_witness :
    IsMatching [0, 1]
      (max_weight_matching [0, 1] (get_past_meeting_counts [(0, 1)])) ∧
    ([(1, 0)].length ≤
      (max_weight_matching [0, 1] (get_past_meeting_counts [(0, 1)])).length ∧
     ([(1, 0)].length =
      (max_weight_matching [0, 1] (get_past_meeting_counts [(0, 1)])).length →
      totalCost (get_past_meeting_counts [(0, 1)])
        (max_weight_matching [0, 1] (get_past_meeting_counts [(0, 1)])) ≤
      totalCost (get_past_meeting_counts [(0, 1)]) [(1, 0)])) :=
  ⟨(C2_matching_optimality [0, 1] [(0, 1)] (by decide) (by decide)).1,
   (C2_matching_optimality [0, 1] [(0, 1)] (by decide) (by decide)).2 [(1, 0)]
     ⟨by decide, by
       intro a ha
       replace ha : a ∈ ([1, 0] : List Nat) := ha
       simp only [List.mem_cons, List.not_mem_nil, or_false] at ha ⊢
       omega⟩⟩

/-! ### Claim C1: the assignment partitions the registry -/

theorem make_assignment_eq (ids : List Nat) (history : List (Nat × Nat)) :
    make_assignment ids history =
      if ids.length % 2 = 1 then
        match ids.filter (fun i => decide (i ∉ verts
            (max_weight_matching ids (get_past_meeting_counts history)))) with
        | [] => .error "pop from an empty set"
        | unmatched_id :: _ =>
          match form_triplet_groups
              (max_weight_matching ids (get_past_meeting_counts history))
              unmatched_id (get_past_meeting_counts history) with
          | .error e => .error e
          | .ok groups => groups_lookup ids groups
      else
        groups_lookup ids
          ((max_weight_matching ids (get_past_meeting_counts history)).map
            (fun p => [p.1, p.2])) := rfl

theorem group_lookup_ok {ids : List Nat} :
    ∀ {g : List Nat}, (∀ i ∈ g, i ∈ ids) → group_lookup ids g = .ok g := by
  intro g
  induction g with
  | nil => intro _; rfl
  | cons i rest ih =>
    intro h
    show (match registry_lookup ids i with
      | Except.error e => Except.error e
      | Except.ok j =>
        match group_lookup ids rest with
        | Except.error e => Except.error e
        | Except.ok js => Except.ok (j :: js)) = Except.ok (i :: rest)
    unfold registry_lookup
    rw [if_pos (h i (List.mem_cons_self _ _))]
    dsimp only
    rw [ih (fun j hj => h j (List.mem_cons_of_mem _ hj))]

theorem groups_lookup_ok {ids : List Nat} :
    ∀ {gs : List (List Nat)}, (∀ g ∈ gs, ∀ i ∈ g, i ∈ ids) →
      groups_lookup ids gs = .ok gs := by
  intro gs
  induction gs with
  | nil => intro _; rfl
  | cons g rest ih =>
    intro h
    show (match group_lookup ids g with
      | Except.error e => Except.error e
      | Except.ok g' =>
        match groups_lookup ids rest with
        | Except.error e => Except.error e
        | Except.ok gs' => Except.ok (g' :: gs')) = Except.ok (g :: rest)
    rw [group_lookup_ok (h g (List.mem_cons_self _ _))]
    dsimp only
    rw [ih (fun g' hg' i hi => h g' (List.mem_cons_of_mem _ hg') i hi)]

/-- C5, amended: for a single-id registry and any history referencing
only that registered id, the solver computes an empty matching,
designates the lone person as unmatched, and fails inside
`_form_triplet_groups` with the `ValueError("min() arg is an empty
sequence")` raised by `min` — there is no up-front roster-size check and
no `InsufficientRosterError` anywhere.  (A history naming foreign ids
instead ends in a `KeyError`, since the graph gains those ids as
nodes.) -/
theorem C5_size_one_crashes (i : Nat) (history : List (Nat × Nat))
    (hw : ∀ p ∈ history, p.1 ∈ [i] ∧ p.2 ∈ [i]) :
    make_assignment [i] history =
      .error "min() arg is an empty sequence" := by
  have hnodes : graph_nodes [i] (get_past_meeting_counts history) = [i] :=
    graph_nodes_of_within [i] _ (counts_keys_within hw)
  rw [make_assignment_eq]
  unfold max_weight_matching graph_matchings
  rw [hnodes]
  rfl

/-- C5, witness: the amended theorem applied to the one-person registry
with a history holding only the self-pair of its id. -/
theorem C5_witness :
    make_assignment [0] [(0, 0)] =
      .error "min() arg is an empty sequence" :=
  C5_size_one_crashes 0 [(0, 0)] (by decide)

theorem length_filter_split (ids vs : List Nat) :
    (ids.filter (fun i => decide (i ∈ vs))).length +
      (ids.filter (fun i => decide (i ∉ vs))).length = ids.length := by
  induction ids with
  | nil => rfl
  | cons a l ih =>
    rw [List.filter_cons, List.filter_cons]
    by_cases h : a ∈ vs
    · rw [if_pos (by simp [h]), if_neg (by simp [h])]
      simp only [List.length_cons]
      omega
    · rw [if_neg (by simp [h]), if_pos (by simp [h])]
      simp only [List.length_cons]
      omega

theorem length_filter_not_mem {ids vs : List Nat} (hnd : ids.Nodup)
    (hv : vs.Nodup) (hsub : vs ⊆ ids) :
    (ids.filter (fun i => decide (i ∉ vs))).length =
      ids.length - vs.length := by
  have hperm : (ids.filter (fun i => decide (i ∈ vs))).Perm vs := by
    have a1 : List.Subperm (ids.filter (fun i => decide (i ∈ vs))) vs :=
      List.subperm_of_subset (hnd.filter _) (by
        intro a ha
        have := List.mem_filter.mp ha
        simpa using this.2)
    have a2 : List.Subperm vs (ids.filter (fun i => decide (i ∈ vs))) :=
      List.subperm_of_subset hv (by
        intro a ha
        exact List.mem_filter.mpr ⟨hsub ha, by simpa using ha⟩)
    exact a1.antisymm a2
  have hsplit := length_filter_split ids vs
  have := hperm.length_eq
  omega

theorem countP_eq_one_of_nodup_mem {α : Type} [DecidableEq α]
    {l : List α} {a : α} (hnd : l.Nodup) (ha : a ∈ l) :
    l.countP (fun x => decide (x = a)) = 1 := by
  induction l with
  | nil => cases ha
  | cons b rest ih =>
    rw [List.countP_cons]
    rcases List.mem_cons.mp ha with heq | hmem
    · subst heq
      have hnotin : a ∉ rest := (List.nodup_cons.mp hnd).1
      have h0 : rest.countP (fun x => decide (x = a)) = 0 := by
        rw [List.countP_eq_zero]
        intro x hx
        simp only [decide_eq_true_eq]
        intro hcontra
        exact hnotin (hcontra ▸ hx)
      simp [h0]
    · have hba : b ≠ a := by
        intro hcontra
        exact (List.nodup_cons.mp hnd).1 (hcontra ▸ hmem)
      have := ih (List.nodup_cons.mp hnd).2 hmem
      simp [this, hba]

theorem flatten_triplet_perm (m : List (Nat × Nat)) (mp : Nat × Nat)
    (u : Nat) (hmem : mp ∈ m) (hnd : m.Nodup) :
    ((m.map (fun pair => if pair = mp then [pair.1, pair.2, u]
      else [pair.1, pair.2])).flatten).Perm (u :: verts m) := by
  induction m with
  | nil => cases hmem
  | cons a rest ih =>
    rcases List.mem_cons.mp hmem with heq | hmem'
    · subst heq
      have hnotin : mp ∉ rest := (List.nodup_cons.mp hnd).1
      have hmap : rest.map (fun pair => if pair = mp then
          [pair.1, pair.2, u] else [pair.1, pair.2]) =
          rest.map (fun pair => [pair.1, pair.2]) :=
        List.map_congr_left (fun p hp => by
          have hpne : p ≠ mp := by
            intro hcontra
            exact hnotin (hcontra ▸ hp)
          rw [if_neg hpne])
      simp only [List.map_cons, if_pos rfl, List.flatten_cons, hmap]
      rw [verts_cons]
      show (mp.1 :: mp.2 :: u :: verts rest).Perm
        (u :: mp.1 :: mp.2 :: verts rest)
      exact (List.Perm.cons mp.1 (List.Perm.swap u mp.2 _)).trans
        (List.Perm.swap u mp.1 _)
    · have hne : a ≠ mp := fun h => (List.nodup_cons.mp hnd).1 (h ▸ hmem')
      simp only [List.map_cons, if_neg hne, List.flatten_cons]
      rw [verts_cons]
      have ihh := ih hmem' (List.nodup_cons.mp hnd).2
      show (a.1 :: a.2 :: _).Perm (u :: a.1 :: a.2 :: verts rest)
      exact (List.Perm.cons a.1 (List.Perm.cons a.2 ihh)).trans
        ((List.Perm.cons a.1 (List.Perm.swap u a.2 _)).trans
          (List.Perm.swap u a.1 _))

/-- C1, counterexample: for the registry `{0, 1}` and the history pair
`(5, 6)` naming ids outside the registry, the matching graph gains nodes
5 and 6, the maximum-cardinality matching is `{(0, 1), (5, 6)}`, and the
`registry[id]` conversion fails: `make_assignment` raises `KeyError`
instead of returning any list of groups. -/
theorem C1_counterexample :
    make_assignment [0, 1] [(5, 6)] = .error "KeyError: 5" := by rfl

/-- C1, amended: for every registry of size at least 2 (duplicate-free
ids, as Python dict keys are) and every history all of whose pairs lie
within the registry ids (every history produced by `parse_history`
does), `make_assignment` succeeds and returns groups whose ids, taken
together, are a permutation of the full id set (each id exactly once);
when the size is even every group has size 2, and when it is odd exactly
one group has size 3 and all others have size 2.  For a history naming
foreign ids the graph gains those nodes and `make_assignment` can
instead fail with a `KeyError` (see the counterexample). -/
theorem C1_partition (ids : List Nat) (history : List (Nat × Nat))
    (hnd : ids.Nodup) (hlen2 : 2 ≤ ids.length)
    (hw : ∀ p ∈ history, p.1 ∈ ids ∧ p.2 ∈ ids) :
    ∃ groups, make_assignment ids history = .ok groups ∧
      groups.flatten.Perm ids ∧
      (ids.length % 2 = 0 → ∀ g ∈ groups, g.length = 2) ∧
      (ids.length % 2 = 1 →
        groups.countP (fun g => decide (g.length = 3)) = 1 ∧
        ∀ g ∈ groups, g.length = 2 ∨ g.length = 3) := by
  have hmem := max_weight_matching_mem ids history hnd hw
  have hM := matchings_sound' hnd hmem
  have hcard := max_weight_matching_length ids history hnd hw
  rw [make_assignment_eq]
  set M := max_weight_matching ids (get_past_meeting_counts history)
    with hMdef
  by_cases hodd : ids.length % 2 = 1
  · rw [if_pos hodd]
    have hflen : (ids.filter (fun i => decide (i ∉ verts M))).length = 1 := by
      rw [length_filter_not_mem hnd hM.1 hM.2, verts_length, hcard]
      omega
    obtain ⟨u, hu⟩ := List.length_eq_one.mp hflen
    rw [hu]
    have hne : M ≠ [] := by
      intro h0
      rw [h0] at hcard
      simp only [List.length_nil] at hcard
      omega
    obtain ⟨mp, hmp, hmin, hform⟩ :=
      form_triplet_groups_spec M u (get_past_meeting_counts history) hne
    dsimp only
    rw [hform]
    dsimp only
    have hndm := nodup_of_verts_nodup hM.1
    have hufacts : u ∈ ids ∧ u ∉ verts M := by
      have humem : u ∈ ids.filter (fun i => decide (i ∉ verts M)) := by
        rw [hu]; exact List.mem_singleton_self u
      have := List.mem_filter.mp humem
      exact ⟨this.1, by simpa using this.2⟩
    have hlook : groups_lookup ids (M.map (fun pair =>
        if pair = mp then [pair.1, pair.2, u] else [pair.1, pair.2])) =
        .ok (M.map (fun pair =>
          if pair = mp then [pair.1, pair.2, u] else [pair.1, pair.2])) := by
      apply groups_lookup_ok
      intro g hg i hi
      rcases List.mem_map.mp hg with ⟨pair, hpair, rfl⟩
      have hp1 : pair.1 ∈ ids := hM.2 (fst_mem_verts hpair)
      have hp2 : pair.2 ∈ ids := hM.2 (snd_mem_verts hpair)
      by_cases hpm : pair = mp
      · rw [if_pos hpm] at hi
        simp only [List.mem_cons, List.not_mem_nil, or_false] at hi
        rcases hi with rfl | rfl | rfl
        · exact hp1
        · exact hp2
        · exact hufacts.1
      · rw [if_neg hpm] at hi
        simp only [List.mem_cons, List.not_mem_nil, or_false] at hi
        rcases hi with rfl | rfl
        · exact hp1
        · exact hp2
    rw [hlook]
    refine ⟨_, rfl, ?_, ?_, ?_⟩
    · refine (flatten_triplet_perm M mp u hmp hndm).trans ?_
      refine (List.subperm_of_subset ?_ ?_).perm_of_length_le ?_
      · exact List.nodup_cons.mpr ⟨hufacts.2, hM.1⟩
      · intro a ha
        rcases List.mem_cons.mp ha with rfl | ha'
        · exact hufacts.1
        · exact hM.2 ha'
      · simp only [List.length_cons, verts_length, hcard]
        omega
    · intro heven; omega
    · intro _
      constructor
      · rw [List.countP_map]
        have hc : List.countP ((fun g => decide (g.length = 3)) ∘
            (fun pair => if pair = mp then [pair.1, pair.2, u]
              else [pair.1, pair.2])) M =
            List.countP (fun pair => decide (pair = mp)) M := by
          apply List.countP_congr
          intro pair _
          by_cases hpm : pair = mp <;> simp [hpm, Function.comp]
        rw [hc]
        exact countP_eq_one_of_nodup_mem hndm hmp
      · intro g hg
        rcases List.mem_map.mp hg with ⟨pair, _, rfl⟩
        by_cases hpm : pair = mp
        · right; rw [if_pos hpm]; rfl
        · left; rw [if_neg hpm]; rfl
  · rw [if_neg hodd]
    have hlook2 : groups_lookup ids (M.map (fun p => [p.1, p.2])) =
        .ok (M.map (fun p => [p.1, p.2])) := by
      apply groups_lookup_ok
      intro g hg i hi
      rcases List.mem_map.mp hg with ⟨pair, hpair, rfl⟩
      simp only [List.mem_cons, List.not_mem_nil, or_false] at hi
      rcases hi with rfl | rfl
      · exact hM.2 (fst_mem_verts hpair)
      · exact hM.2 (snd_mem_verts hpair)
    rw [hlook2]
    refine ⟨_, rfl, ?_, ?_, ?_⟩
    · show (verts M).Perm ids
      refine (List.subperm_of_subset hM.1 hM.2).perm_of_length_le ?_
      rw [verts_length, hcard]
      omega
    · intro _ g hg
      rcases List.mem_map.mp hg with ⟨pair, _, rfl⟩
      rfl
    · intro hodd'
      exact absurd hodd' hodd

/-- C1, witness: the partition theorem applied to the three-person
registry with ids 0, 1, 2 and an empty history. -/
theorem C1_witness :
    ∃ groups, make_assignment [0, 1, 2] [] = .ok groups ∧
      groups.flatten.Perm [0, 1, 2] ∧
      ([0, 1, 2].length % 2 = 0 → ∀ g ∈ groups, g.length = 2) ∧
      ([0, 1, 2].length % 2 = 1 →
        groups.countP (fun g => decide (g.length = 3)) = 1 ∧
        ∀ g ∈ groups, g.length = 2 ∨ g.length = 3) :=
  C1_partition [0, 1, 2] [] (by decide) (by decide) (by decide)

end Donuts
